import Mathlib

/-!
A shallow embedding of the jss core under verification:

* `RuleList` (src/RuleList.js): the rule registry with its single object map
  holding both key- and selector-entries, the ordered `index` sequence, and
  the operations `add`, `remove`, `indexOf`, `process`, `register`,
  `unregister`, `toString`, `link`.
* The DOM renderer (`DomRenderer`): `findHigherSheet`, `findHighestSheet`,
  `findCommentNode`, `findPrevNode`, `insertStyle`, `getSelector`,
  `extractSelector`, `attach`, `detach`, `deploy`, `insertRule`.

JS semantics that matter here are modelled explicitly: object maps are
association lists with set/delete/get; `Array.prototype.splice` with a
negative start (as produced by a failed `indexOf`) counts from the end;
`String.prototype.substr(start, length)` takes `length` characters;
`!index` in JS is true for the number 0.  Fallible native operations
(`removeChild` on a detached node, `CSSStyleSheet.insertRule` out of range)
return `Option`.  The `warning(cond, msg)` collaborator emits its message
exactly when `cond` is false; emitted warnings are collected in a list.
-/

/-! ### JS string primitives -/

/-- First index at which `pat` occurs as a contiguous sublist of `cs`
(`String.prototype.indexOf`, character-list form); `none` when absent. -/
def listIndexOfSub (pat : List Char) : List Char → Option Nat
  | [] => if pat.isPrefixOf ([] : List Char) then some 0 else none
  | c :: t => if pat.isPrefixOf (c :: t) then some 0 else (listIndexOfSub pat t).map (· + 1)

/-- `String.prototype.indexOf`: position of the first occurrence of `pat`
in `s`, `-1` when `pat` does not occur. -/
def jsStrIndexOf (s pat : String) : Int :=
  match listIndexOfSub pat.toList s.toList with
  | some n => (n : Int)
  | none => -1

/-- `String.prototype.substr(start, length)`: `length` characters from
position `start`; a negative `start` counts from the end, a negative
`length` yields the empty string. -/
def jsSubstr (s : String) (start len : Int) : String :=
  let cs := s.toList
  let n : Int := (cs.length : Int)
  let st : Int := if start < 0 then max (n + start) 0 else start
  String.mk ((cs.drop st.toNat).take (max len 0).toNat)

/-! ### JS array primitives -/

/-- `Array.prototype.indexOf`: first index of `x` in `l`, `-1` when absent. -/
def jsIndexOf {α : Type} [DecidableEq α] : List α → α → Int
  | [], _ => -1
  | a :: t, x =>
    if a = x then 0
    else
      let i := jsIndexOf t x
      if i < 0 then -1 else i + 1

/-- `Array.prototype.splice(i, 0, x)`: insert `x` at position `i`
(a start past the end is clamped to the end). -/
def spliceInsertAt {α : Type} (l : List α) (i : Nat) (x : α) : List α :=
  let j := min i l.length
  l.take j ++ x :: l.drop j

/-- `Array.prototype.splice(start, 1)`: delete one element at `start`;
a negative `start` counts from the end of the array (so `splice(-1, 1)`
deletes the last element of a non-empty array). -/
def spliceRemoveOne {α : Type} (l : List α) (start : Int) : List α :=
  let n : Int := (l.length : Int)
  let j : Nat := (if start < 0 then max (n + start) 0 else min start n).toNat
  l.take j ++ l.drop (j + 1)

/-! ### JS object maps

A JS object used as a dictionary: an association list in insertion order.
Assignment to an existing key overwrites in place, assignment to a fresh
key appends, `delete` removes the entry. -/

/-- A JS object used as a string-keyed map. -/
abbrev ObjMap (α : Type) := List (String × α)

/-- `k in m`. -/
def objHas {α : Type} (m : ObjMap α) (k : String) : Bool :=
  m.any (fun e => e.1 == k)

/-- `m[k] = v`. -/
def objSet {α : Type} (m : ObjMap α) (k : String) (v : α) : ObjMap α :=
  if objHas m k then m.map (fun e => if e.1 == k then (k, v) else e) else m ++ [(k, v)]

/-- `delete m[k]`. -/
def objDelete {α : Type} (m : ObjMap α) (k : String) : ObjMap α :=
  m.filter (fun e => !(e.1 == k))

/-- `m[k]`, `none` for `undefined`. -/
def objGet {α : Type} (m : ObjMap α) (k : String) : Option α :=
  (m.find? (fun e => e.1 == k)).map (fun e => e.2)

/-! ### Rules and the rule registry (src/RuleList.js)

A rule as `RuleList` observes it: its registry `key`, its `selector`
(present exactly for style-variant rules, i.e. `rule instanceof StyleRule`),
and its own serialization `body` (the result of `rule.toString()`, produced
by the rule classes, which are external collaborators of RuleList.js). -/

structure Rule where
  key : String
  selector : Option String
  body : String
  deriving DecidableEq

/-- Whether the rule is a style-variant rule (`rule instanceof StyleRule`). -/
def Rule.isStyle (r : Rule) : Bool := r.selector.isSome

/-- The state of a `RuleList`: the combined key/selector object `map`, the
`raw` declarations object, the shared `classes` object and the ordered
`index` array. -/
structure RuleListState where
  map : ObjMap Rule
  raw : ObjMap String
  classes : ObjMap String
  index : List Rule
  deriving DecidableEq

/-- A freshly constructed `RuleList`. -/
def emptyRuleList : RuleListState := ⟨[], [], [], []⟩

namespace RuleList

/-- `register(rule, className)`: `map[rule.key] = rule`; for a style rule
additionally `map[rule.selector] = rule` and, when a class name was
generated, `classes[rule.key] = className`. -/
def register (s : RuleListState) (rule : Rule) (className : Option String) : RuleListState :=
  let m := objSet s.map rule.key rule
  match rule.selector with
  | some sel =>
    let m := objSet m sel rule
    let cls := match className with
      | some c => objSet s.classes rule.key c
      | none => s.classes
    { s with map := m, classes := cls }
  | none => { s with map := m }

/-- `unregister(rule)`: `delete map[rule.key]`; for a style rule also
`delete map[rule.selector]` and `delete classes[rule.key]`. -/
def unregister (s : RuleListState) (rule : Rule) : RuleListState :=
  let m := objDelete s.map rule.key
  match rule.selector with
  | some sel =>
    { s with map := objDelete m sel, classes := objDelete s.classes rule.key }
  | none => { s with map := m }

/-- `add(name, decl, options)`.  Rule creation (`createRule`) and class-name
generation (`generateClassName`) are external collaborators: the embedding
receives the created `rule` (whose `key` is `name` and whose `selector` is
already resolved) and the generated `className` when one was produced.
`add` stores the raw declaration, registers the rule, and splices it into
the ordered sequence at `options.index` (default: the end). -/
def add (s : RuleListState) (rule : Rule) (decl : String) (atIndex : Option Nat)
    (className : Option String) : RuleListState :=
  let s := { s with raw := objSet s.raw rule.key decl }
  let s := register s rule className
  let i := match atIndex with
    | none => s.index.length
    | some i => i
  { s with index := spliceInsertAt s.index i rule }

/-- `indexOf(rule)`: `this.index.indexOf(rule)`. -/
def indexOf (s : RuleListState) (rule : Rule) : Int :=
  jsIndexOf s.index rule

/-- `remove(rule)`: `this.unregister(rule); this.index.splice(this.indexOf(rule), 1)`. -/
def remove (s : RuleListState) (rule : Rule) : RuleListState :=
  let s1 := unregister s rule
  { s1 with index := spliceRemoveOne s1.index (indexOf s1 rule) }

/-- The loop of `process()`: `this.index.slice(0).forEach(plugins.onProcessRule)`.
The list argument is the snapshot taken when the loop starts; the hook
threads the (possibly mutated) registry state.  The second component
records the rules the hook was actually invoked on, in invocation order. -/
def forEachProcess (hook : Rule → RuleListState → RuleListState) :
    List Rule → RuleListState → RuleListState × List Rule
  | [], s => (s, [])
  | r :: rest, s =>
    let out := forEachProcess hook rest (hook r s)
    (out.1, r :: out.2)

/-- `process()`: run the plugin hook over a snapshot copy of `index`. -/
def process (hook : Rule → RuleListState → RuleListState) (s : RuleListState) : RuleListState :=
  (forEachProcess hook s.index s).1

/-- The loop of `toString(options)`: each rule serializes via its own
`toString` (`rule.body` here); empty serializations are skipped, a single
newline separates accumulated non-empty ones. -/
def toStringGo : List Rule → String → String
  | [], str => str
  | r :: rest, str =>
    let css := r.body
    if css = "" then toStringGo rest str
    else if str = "" then toStringGo rest css
    else toStringGo rest (str ++ "\n" ++ css)

/-- `toString(options)`. -/
def toCss (s : RuleListState) : String :=
  toStringGo s.index ("")

end RuleList

/-! ### The host document model

The host style area (`document.head`) is a list of nodes; a node is an
element or a comment, carrying a `Nat` identity that models JS reference
identity.  A node "has a parent" exactly when a node with its identity is
among the head's children. -/

inductive NodeKind where
  | element
  | comment (value : String)
  deriving DecidableEq

structure HeadNode where
  id : Nat
  kind : NodeKind
  deriving DecidableEq

/-- `node.parentNode !== null`, with the head as the only modelled parent. -/
def nodeInHead (head : List HeadNode) (n : HeadNode) : Bool :=
  head.any (fun m => m.id == n.id)

/-- `node.nextSibling` within the head (`none` when last or detached). -/
def nextSibling (head : List HeadNode) (n : HeadNode) : Option HeadNode :=
  match head.dropWhile (fun m => !(m.id == n.id)) with
  | [] => none
  | _ :: rest => rest.head?

/-- `node.nextElementSibling` within the head: the next sibling that is an
element, skipping comment nodes. -/
def nextElementSibling (head : List HeadNode) (n : HeadNode) : Option HeadNode :=
  match head.dropWhile (fun m => !(m.id == n.id)) with
  | [] => none
  | _ :: rest => rest.find? (fun m => m.kind == NodeKind.element)

/-- `parentNode.insertBefore(style, target)`: insert immediately before the
first child whose identity is `targetId`. -/
def insertBeforeId (head : List HeadNode) (targetId : Nat) (style : HeadNode) : List HeadNode :=
  head.takeWhile (fun m => !(m.id == targetId)) ++
    style :: head.dropWhile (fun m => !(m.id == targetId))

/-- `parentNode.removeChild(node)`: remove the first child with that identity. -/
def removeById (head : List HeadNode) (targetId : Nat) : List HeadNode :=
  head.takeWhile (fun m => !(m.id == targetId)) ++
    (head.dropWhile (fun m => !(m.id == targetId))).tail

/-! ### Sheets and the insertion-point resolver -/

/-- A declared insertion point: a string marker or a direct node reference. -/
inductive InsertionPoint where
  | str (s : String)
  | node (n : HeadNode)
  deriving DecidableEq

/-- The `PriorityOptions` of a sheet: its priority `index` and optional
`insertionPoint`.  `===` on insertion points is value equality for strings,
reference (identity) equality for nodes, and `undefined === undefined`. -/
structure SheetOptions where
  index : Int
  insertionPoint : Option InsertionPoint
  deriving DecidableEq

/-- A Global Sheet Registry entry as the resolver reads it: the `attached`
flag, the sheet's options, and its renderer's element. -/
structure SheetRec where
  attached : Bool
  options : SheetOptions
  element : HeadNode
  deriving DecidableEq

/-- The loop condition of `findHigherSheet`. -/
def higherMatch (opts : SheetOptions) (sh : SheetRec) : Bool :=
  sh.attached && decide (opts.index < sh.options.index) &&
    (sh.options.insertionPoint == opts.insertionPoint)

/-- `findHigherSheet(registry, options)`: first (in registration order)
attached sheet with a strictly higher index and the same insertion point. -/
def findHigherSheet (registry : List SheetRec) (opts : SheetOptions) : Option SheetRec :=
  registry.find? (higherMatch opts)

/-- `findHighestSheet(registry, options)`: scanning backwards, the last
attached sheet with the same insertion point. -/
def findHighestSheet (registry : List SheetRec) (opts : SheetOptions) : Option SheetRec :=
  registry.reverse.find? (fun sh => sh.attached && (sh.options.insertionPoint == opts.insertionPoint))

/-- `findCommentNode(text)`: first comment child of the head whose trimmed
value equals `text`. -/
def findCommentNode (text : String) (head : List HeadNode) : Option HeadNode :=
  head.find? (fun n =>
    match n.kind with
    | NodeKind.comment v => v.trim == text
    | NodeKind.element => false)

/-- The warning emitted for a missing named insertion point. -/
def insertionPointMissingWarning (s : String) : String :=
  "[JSS] Insertion point \"" ++ s ++ "\" not found."

/-- The warning emitted for a node insertion point that is not in the DOM. -/
def insertionPointDetachedWarning : String :=
  "[JSS] Insertion point is not in the DOM."

/-- The result of `findPrevNode`: the returned node (`none` for `null`)
and the warnings emitted on the way. -/
structure PrevResult where
  node : Option HeadNode
  warnings : List String
  deriving DecidableEq

/-- The marker part of `findPrevNode`: when the insertion point is a string,
look the comment marker up; on a miss, `warning(insertionPoint === "jss", ...)`
fires exactly when the marker is not the default `"jss"`. -/
def findMarkerNode (opts : SheetOptions) (head : List HeadNode) : PrevResult :=
  match opts.insertionPoint with
  | some (InsertionPoint.str s) =>
    match findCommentNode s head with
    | some c => ⟨nextSibling head c, []⟩
    | none => ⟨none, if s == "jss" then [] else [insertionPointMissingWarning s]⟩
  | _ => ⟨none, []⟩

/-- `findPrevNode(options)`: try the next higher sheet, then the highest
attached sheet for the same insertion point, then a comment marker. -/
def findPrevNode (opts : SheetOptions) (registry : List SheetRec) (head : List HeadNode) :
    PrevResult :=
  if registry.length > 0 then
    match findHigherSheet registry opts with
    | some sheet => ⟨some sheet.element, []⟩
    | none =>
      match findHighestSheet registry opts with
      | some sheet => ⟨nextElementSibling head sheet.element, []⟩
      | none => findMarkerNode opts head
  else findMarkerNode opts head

/-- `insertStyle(style, options)`: place `style` in the head according to
`findPrevNode`, the direct-node insertion point, or at the end.  Returns the
new children list of the head together with all emitted warnings. -/
def insertStyle (style : HeadNode) (opts : SheetOptions) (registry : List SheetRec)
    (head : List HeadNode) : List HeadNode × List String :=
  let pr := findPrevNode opts registry head
  match pr.node with
  | some prevNode =>
    if nodeInHead head prevNode then (insertBeforeId head prevNode.id style, pr.warnings)
    else (head, pr.warnings)
  | none =>
    match opts.insertionPoint with
    | some (InsertionPoint.node n) =>
      if nodeInHead head n then
        (match nextSibling head n with
          | some ns => insertBeforeId head ns.id style
          | none => head ++ [style], pr.warnings)
      else (head, pr.warnings ++ [insertionPointDetachedWarning])
    | _ => (head ++ [style], pr.warnings)

/-! ### The renderer (StyleContainer adapter) -/

/-- The sheet as the renderer observes it: its priority options and
`sheet.toString()`, the serialization of its rule registry. -/
structure SheetModel where
  options : SheetOptions
  css : String
  deriving DecidableEq

/-- `DomRenderer` state: the owned style element, its text content, its
materialized native rule list (`element.sheet.cssRules`, as rule texts),
the `hasInsertedRules` flag and the owning sheet. -/
structure Renderer where
  element : HeadNode
  textContent : String
  cssRules : List String
  hasInsertedRules : Bool
  sheet : Option SheetModel
  deriving DecidableEq

namespace DomRenderer

/-- `deploy()`: overwrite the element's text content with the sheet's
serialization, framed by newlines. -/
def deploy (r : Renderer) : Renderer :=
  match r.sheet with
  | none => r
  | some sh => { r with textContent := "\n" ++ sh.css ++ "\n" }

/-- `attach()`: no-op when the element already has a parent or there is no
sheet; otherwise redeploy first when `hasInsertedRules` is set, then insert
the element via `insertStyle`.  Returns the renderer, the head's new
children and the emitted warnings. -/
def attach (r : Renderer) (registry : List SheetRec) (head : List HeadNode) :
    Renderer × List HeadNode × List String :=
  if nodeInHead head r.element then (r, head, [])
  else
    match r.sheet with
    | none => (r, head, [])
    | some sh =>
      let r1 := if r.hasInsertedRules then { deploy r with hasInsertedRules := false } else r
      let out := insertStyle r1.element sh.options registry head
      (r1, out.1, out.2)

/-- `detach()`: `this.element.parentNode.removeChild(this.element)`.  When
the element has no parent, `parentNode` is `null` and the member access
throws: modelled as `none`. -/
def detach (r : Renderer) (head : List HeadNode) : Option (List HeadNode) :=
  if nodeInHead head r.element then some (removeById head r.element.id) else none

/-- `insertRule(rule, index)`: `!index` is true in JS both for an omitted
index and for an explicit `0`, so both fall back to `cssRules.length`.
An empty serialization returns the failure sentinel; an out-of-range index
makes the native `insertRule` throw, which is caught (warning) and reported
as the failure sentinel.  On success the rule text is spliced into the
native rule list, `hasInsertedRules` is set, and `cssRules[index]` is
returned. -/
def insertRule (r : Renderer) (rule : Rule) (atIndex : Option Nat) :
    Renderer × Option String :=
  let len := r.cssRules.length
  let str := rule.body
  let idx := match atIndex with
    | none => len
    | some 0 => len
    | some i => i
  if str = "" then (r, none)
  else if len < idx then (r, none)
  else
    let rules := r.cssRules.take idx ++ str :: r.cssRules.drop idx
    ({ r with cssRules := rules, hasInsertedRules := true }, rules.get? idx)

end DomRenderer

/-! ### The rule linker -/

/-- A native (CSSOM) rule as `getSelector` observes it: its `type` code,
its `selectorText`, its structured keyframes `name` (absent in engines that
do not expose one) and its raw `cssText`. -/
structure CSSOMRule where
  type : Nat
  selectorText : String
  name : Option String
  cssText : String
  deriving DecidableEq

/-- `extractSelector(cssText, from)`:
`cssText.substr(from, cssText.indexOf(openBrace) - 1)`. -/
def extractSelector (cssText : String) (f : Int := 0) : String :=
  jsSubstr cssText f (jsStrIndexOf cssText ("\x7b") - 1)

/-- `CSSRuleTypes.STYLE_RULE`. -/
def styleRuleType : Nat := 1

/-- `CSSRuleTypes.KEYFRAMES_RULE`. -/
def keyframesRuleType : Nat := 7

/-- `getSelector(cssRule)`: a style rule's `selectorText`; a keyframes
rule's structured name when available, else the name scanned out of the raw
text starting at `keyframes`; any other kind scans the raw text from the
start. -/
def getSelector (cssRule : CSSOMRule) : String :=
  if cssRule.type = styleRuleType then cssRule.selectorText
  else if cssRule.type = keyframesRuleType then
    match cssRule.name with
    | some n => "@keyframes " ++ n
    | none =>
      "@" ++ extractSelector cssRule.cssText (jsStrIndexOf cssRule.cssText ("keyframes"))
  else extractSelector cssRule.cssText

namespace RuleList

/-- `link(cssRules)`: for each native rule derive its selector via
`getSelector` (when selector-escaping support is on, first de-escape it
through the pre-computed unescaped-selectors map, a renderer DOM probe that
is passed in here), look it up in the registry map, and on a hit record the
binding (`linkRule`, an external collaborator, modelled as emitting the
bound pair). -/
def link (s : RuleListState) (supportEscaping : Bool) (unescapedMap : ObjMap String)
    (cssRules : List CSSOMRule) : List (Rule × CSSOMRule) :=
  cssRules.foldl
    (fun acc cssRule =>
      let sel0 := getSelector cssRule
      let sel : Option String := if supportEscaping then objGet unescapedMap sel0 else some sel0
      match sel.bind (fun k => objGet s.map k) with
      | some rule => acc ++ [(rule, cssRule)]
      | none => acc)
    []

end RuleList

/-! ### Operation sequences on a rule registry (for the registry invariant) -/

/-- One structural mutation of a `RuleList`: an `add` (with the created
rule, the raw declaration, the optional position and the optional generated
class name) or a `remove`. -/
inductive RegistryOp where
  | addOp (rule : Rule) (decl : String) (atIndex : Option Nat) (className : Option String)
  | removeOp (rule : Rule)
  deriving DecidableEq

/-- Apply one operation. -/
def applyOp (s : RuleListState) : RegistryOp → RuleListState
  | RegistryOp.addOp r d i c => RuleList.add s r d i c
  | RegistryOp.removeOp r => RuleList.remove s r

/-- Apply a sequence of operations, left to right. -/
def applyOps (s : RuleListState) (ops : List RegistryOp) : RuleListState :=
  ops.foldl applyOp s

/-- The keys of the rules currently in the ordered sequence. -/
def keysOf (s : RuleListState) : List String := s.index.map (fun r => r.key)

/-- The selectors of the style-variant rules currently in the ordered sequence. -/
def selsOf (s : RuleListState) : List String := s.index.filterMap (fun r => r.selector)

/-- Whether an `add` is well-formed against the current registry: the new
rule's key (and, for a style rule, its selector) collides with no key or
selector already in the sequence, and the selector is not the rule's own
key. -/
def wfAddRule (s : RuleListState) (r : Rule) : Bool :=
  decide (r.key ∉ keysOf s) && decide (r.key ∉ selsOf s) &&
    (match r.selector with
     | none => true
     | some sel =>
       decide (sel ∉ keysOf s) && decide (sel ∉ selsOf s) && decide (sel ≠ r.key))

/-- A well-formed operation sequence: every `add` is collision-free at the
moment it runs and every `remove` targets a rule then present in the
ordered sequence. -/
def wfOps (s : RuleListState) : List RegistryOp → Bool
  | [] => true
  | op :: rest =>
    (match op with
     | RegistryOp.addOp r _ _ _ => wfAddRule s r
     | RegistryOp.removeOp r => decide (r ∈ s.index)) &&
      wfOps (applyOp s op) rest

/-- The key-entries of the combined object map: the entries registered
under a rule's `key` (as opposed to a style rule's selector entry). -/
def keyEntries (m : ObjMap Rule) : ObjMap Rule :=
  m.filter (fun e => e.1 == e.2.key)

/-- The registry invariant maintained by well-formed `add`/`remove`
sequences: keys and selectors in the ordered sequence are collision-free,
the combined map's keys are duplicate-free, and the map holds exactly one
key entry per rule in the sequence plus one selector entry per
style-variant rule in the sequence. -/
structure RegInv (s : RuleListState) : Prop where
  nk : (keysOf s).Nodup
  ns : (selsOf s).Nodup
  disj : ∀ k, k ∈ keysOf s → k ∉ selsOf s
  mnd : (s.map.map Prod.fst).Nodup
  mem : ∀ e : String × Rule, e ∈ s.map ↔
    (∃ r, r ∈ s.index ∧ e = (r.key, r)) ∨
    (∃ r, r ∈ s.index ∧ r.selector = some e.1 ∧ e.2 = r)

/-! ### Spec-side serialization (for the toString refinement claim)

These two definitions follow the spec's words — "joined by a single blank
line between non-empty bodies; empty bodies contribute nothing" — and are
compared against the source-translated `RuleList.toCss`. -/

/-- Join strings with a single newline separator between consecutive items. -/
def sepJoin : List String → String
  | [] => ""
  | [c] => c
  | c :: c2 :: rest => c ++ "\n" ++ sepJoin (c2 :: rest)

/-- The spec's description of `toString`: serialize in sequence order,
drop empty bodies, join the rest with single newline separators. -/
def specToCss (idx : List Rule) : String :=
  sepJoin ((idx.map (fun r => r.body)).filter (fun c => c != ""))

/-- Helper for relating the accumulator loop to `sepJoin`: the text a
non-empty accumulator grows by, one leading separator per item. -/
def glueAll : List String → String
  | [] => ""
  | c :: cs => "\n" ++ c ++ glueAll cs

/-! ## Theorems -/

/-! ### Helper lemmas -/

theorem string_ne_empty_of_data_ne (s : String) (h : s.data ≠ []) : s ≠ "" := by
  intro hc
  apply h
  rw [hc]

theorem sepJoin_cons (c : String) (cs : List String) : sepJoin (c :: cs) = c ++ glueAll cs := by
  induction cs generalizing c with
  | nil => simp [sepJoin, glueAll, String.append_empty]
  | cons c2 rest ih =>
    simp only [sepJoin, glueAll, ih c2]
    rw [String.append_assoc, String.append_assoc]

theorem toStringGo_acc (l : List Rule) : ∀ str : String, str ≠ "" →
    RuleList.toStringGo l str =
      str ++ glueAll ((l.map (fun r => r.body)).filter (fun c => c != "")) := by
  induction l with
  | nil => intro str _; simp [RuleList.toStringGo, glueAll, String.append_empty]
  | cons r rest ih =>
    intro str hstr
    by_cases hb : r.body = ""
    · simp [RuleList.toStringGo, hb, ih str hstr]
    · have hacc : (str ++ "\n" ++ r.body) ≠ "" := by
        apply string_ne_empty_of_data_ne
        simp [String.data_append]
      have hbt : (r.body != "") = true := by simp [hb]
      simp only [RuleList.toStringGo, if_neg hb, if_neg hstr, ih _ hacc]
      simp [List.filter_cons, hbt, glueAll, String.append_assoc]

theorem toStringGo_empty (l : List Rule) : RuleList.toStringGo l ("") = specToCss l := by
  induction l with
  | nil => rfl
  | cons r rest ih =>
    by_cases hb : r.body = ""
    · simp [RuleList.toStringGo, hb, ih, specToCss, List.filter]
    · have hbt : (r.body != "") = true := by simp [hb]
      simp only [RuleList.toStringGo, if_neg hb, if_pos rfl]
      rw [toStringGo_acc rest r.body hb]
      simp [specToCss, List.filter_cons, hbt, sepJoin_cons]

theorem forEachProcess_eq (hook : Rule → RuleListState → RuleListState) :
    ∀ (l : List Rule) (s : RuleListState),
      RuleList.forEachProcess hook l s = (l.foldl (fun st r => hook r st) s, l) := by
  intro l
  induction l with
  | nil => intro s; rfl
  | cons r rest ih => intro s; simp [RuleList.forEachProcess, ih, List.foldl]

/-! ### C6: toString is order-preserving and skip-empty -/

/-- C6: `toString` serializes rules in ordered-sequence order, each via its
own serialization, with a single separator line only between non-empty
serializations; empty serializations contribute nothing, so for rules
`[A(""), B("color:red")]` the output is exactly the serialization of `B`,
with no leading or trailing blank line. -/
theorem claimC6_toString_skip_empty :
    (∀ s : RuleListState, RuleList.toCss s = specToCss s.index) ∧
    RuleList.toCss ⟨[], [], [], [⟨"A", none, ""⟩, ⟨"B", none, "color:red"⟩]⟩ = "color:red" := by
  constructor
  · intro s
    exact toStringGo_empty s.index
  · decide

/-! ### C7: process iterates a snapshot of the ordered sequence -/

/-- C7: `process` invokes the plugin rule-processing hook exactly once on
each rule present in the ordered sequence at the moment of the call, in
sequence order (the recorded invocation trace is exactly the sequence at
call time, for every hook, however the hook mutates the registry), and the
resulting state is the hook folded over that snapshot. -/
theorem claimC7_process_snapshot (hook : Rule → RuleListState → RuleListState)
    (s : RuleListState) :
    (RuleList.forEachProcess hook s.index s).2 = s.index ∧
    RuleList.process hook s = s.index.foldl (fun st r => hook r st) s := by
  constructor
  · rw [forEachProcess_eq]
  · unfold RuleList.process
    rw [forEachProcess_eq]

/-! ### C4: remove of an absent rule is not a no-op (code bug) -/

/-- C4 (code bug evaluation): with the registry holding exactly the rule
`a`, removing the absent rule `b` empties the ordered sequence instead of
leaving it untouched: `indexOf` yields `-1` and `splice(-1, 1)` deletes the
last element. -/
theorem claimC4_divergence :
    (applyOps emptyRuleList [RegistryOp.addOp (⟨"a", none, "x"⟩) ("") none none]).index =
      [⟨"a", none, "x"⟩] ∧
    (⟨"b", none, "y"⟩ : Rule) ∉
      (applyOps emptyRuleList [RegistryOp.addOp (⟨"a", none, "x"⟩) ("") none none]).index ∧
    (RuleList.remove (applyOps emptyRuleList [RegistryOp.addOp (⟨"a", none, "x"⟩) ("") none none])
        (⟨"b", none, "y"⟩)).index = [] := by
  decide

/-! ### C3: keyframes name recovery from raw text (code bug) -/

/-- C3 (code bug evaluation): for a keyframes-kind native rule without a
structured name and raw text `"@keyframes pulse { ... }"`, `getSelector`
returns `"@keyframes pulse "` — with a trailing space, because
`extractSelector` takes `indexOf(brace) - 1` characters starting at
`indexOf("keyframes")` without adjusting the length for the start offset —
so the lookup against the registry entry keyed `"@keyframes pulse"` misses
and `link` binds nothing. -/
theorem claimC3_divergence :
    getSelector ⟨keyframesRuleType, "", none, "@keyframes pulse \x7b ... \x7d"⟩ =
      "@keyframes pulse " ∧
    getSelector ⟨keyframesRuleType, "", none, "@keyframes pulse \x7b ... \x7d"⟩ ≠
      "@keyframes pulse" ∧
    RuleList.link
      ⟨[("@keyframes pulse", ⟨"@keyframes pulse", none, "0% \x7b\x7d"⟩)], [], [],
        [⟨"@keyframes pulse", none, "0% \x7b\x7d"⟩]⟩
      false [] [⟨keyframesRuleType, "", none, "@keyframes pulse \x7b ... \x7d"⟩] = [] := by
  refine ⟨by decide, by decide, by decide⟩

/-! ### C10: insertRule treats index 0 as an omitted index -/

/-- C10: the per-rule native insert treats an explicit index argument of 0
the same as an omitted index (`!index` is true for the number 0 in JS):
both fall back to the current native rule count, so a non-empty rule is
appended at the end of the native rule list, not at position 0. -/
theorem claimC10_insertRule_index_zero (r : Renderer) (rule : Rule) :
    DomRenderer.insertRule r rule (some 0) = DomRenderer.insertRule r rule none ∧
    (rule.body ≠ "" →
      (DomRenderer.insertRule r rule (some 0)).1.cssRules = r.cssRules ++ [rule.body] ∧
      (DomRenderer.insertRule r rule (some 0)).2 = some rule.body) := by
  constructor
  · rfl
  · intro h
    simp only [DomRenderer.insertRule, if_neg h, Nat.lt_irrefl, if_false, List.take_length,
      List.drop_length]
    refine ⟨trivial, ?_⟩
    show (r.cssRules ++ [rule.body]).get? r.cssRules.length = some rule.body
    simp

/-- C10 witness: a concrete renderer with one native rule. -/
theorem claimC10_witness :
    DomRenderer.insertRule ⟨⟨2, NodeKind.element⟩, "", ["x"], false, none⟩ (⟨"k", none, "y"⟩)
        (some 0) =
      DomRenderer.insertRule ⟨⟨2, NodeKind.element⟩, "", ["x"], false, none⟩ (⟨"k", none, "y"⟩)
        none ∧
    (DomRenderer.insertRule ⟨⟨2, NodeKind.element⟩, "", ["x"], false, none⟩ (⟨"k", none, "y"⟩)
        (some 0)).1.cssRules = ["x"] ++ ["y"] := by
  refine ⟨(claimC10_insertRule_index_zero _ _).1, ?_⟩
  exact ((claimC10_insertRule_index_zero
    (⟨⟨2, NodeKind.element⟩, "", ["x"], false, none⟩ : Renderer) (⟨"k", none, "y"⟩)).2
    (by decide)).1

/-! ### C8: attach is an idempotent guard; detach is not -/

/-- C8 counterexample: detaching a renderer whose element has no parent is
not a safe no-op: `this.element.parentNode` is `null` and the `removeChild`
member access throws (modelled as `none`), refuting "detach on an
unattached collection neither throws nor changes anything". -/
theorem claimC8_counterexample :
    DomRenderer.detach ⟨⟨2, NodeKind.element⟩, "", [], false, none⟩ [] = none := by
  decide

/-- C8 (amended): attach on an already-attached collection (container
already has a parent) is a safe no-op — state, document and warnings are
unchanged — while detach on an unattached collection fails (the unguarded
`parentNode` dereference throws), so detach requires a parent. -/
theorem claimC8_amended :
    (∀ (r : Renderer) (registry : List SheetRec) (head : List HeadNode),
      nodeInHead head r.element = true → DomRenderer.attach r registry head = (r, head, [])) ∧
    (∀ (r : Renderer) (head : List HeadNode),
      nodeInHead head r.element = false → DomRenderer.detach r head = none) := by
  constructor
  · intro r registry head h
    unfold DomRenderer.attach
    rw [h]
    rfl
  · intro r head h
    unfold DomRenderer.detach
    rw [h]
    rfl

/-- C8 witness: a renderer attached at the head is left alone by `attach`;
the same renderer against an empty head fails to `detach`. -/
theorem claimC8_witness :
    DomRenderer.attach ⟨⟨2, NodeKind.element⟩, "", [], false, none⟩ []
        [⟨2, NodeKind.element⟩] =
      (⟨⟨2, NodeKind.element⟩, "", [], false, none⟩, [⟨2, NodeKind.element⟩], []) ∧
    DomRenderer.detach ⟨⟨2, NodeKind.element⟩, "", [], false, none⟩ [] = none := by
  refine ⟨claimC8_amended.1 _ _ _ (by decide), claimC8_amended.2 _ _ (by decide)⟩

/-! ### C2: insertion before the first higher attached sheet -/

theorem find_eq_filter_head {α : Type} (p : α → Bool) (l : List α) :
    l.find? p = (l.filter p).head? := by
  induction l with
  | nil => rfl
  | cons a t ih =>
    cases h : p a with
    | true => rw [List.find?_cons_of_pos _ h, List.filter_cons_of_pos h]; rfl
    | false =>
      have h2 : ¬ p a = true := by simp [h]
      rw [List.find?_cons_of_neg _ h2, List.filter_cons_of_neg h2, ih]

theorem takeWhile_dropWhile_middle {α : Type} (p : α → Bool) (pre post : List α) (x : α)
    (hpre : ∀ m ∈ pre, p m = true) (hx : p x = false) :
    (pre ++ x :: post).takeWhile p = pre ∧ (pre ++ x :: post).dropWhile p = x :: post := by
  induction pre with
  | nil => simp [List.takeWhile_cons, List.dropWhile_cons, hx]
  | cons a t ih =>
    have ha : p a = true := hpre a (by simp)
    have ht : ∀ m ∈ t, p m = true := fun m hm => hpre m (by simp [hm])
    obtain ⟨h1, h2⟩ := ih ht
    simp [List.takeWhile_cons, List.dropWhile_cons, ha, h1, h2]

/-- C2: on attach, when scanning the Global Sheet Registry in registration
order finds an attached collection with a strictly greater index and an
identical insertion point (`sh` here is the head of the filtered registry,
i.e. the first such match, so ties are broken purely by registration
order), the new container is inserted immediately before that collection's
container, and no warning is emitted. -/
theorem claimC2_insert_before_first_higher (registry : List SheetRec) (opts : SheetOptions)
    (style : HeadNode) (sh : SheetRec) (pre post : List HeadNode)
    (hfirst : (registry.filter (higherMatch opts)).head? = some sh)
    (hpre : ∀ m ∈ pre, (m.id == sh.element.id) = false) :
    insertStyle style opts registry (pre ++ sh.element :: post) =
      (pre ++ style :: sh.element :: post, []) := by
  have hfind : findHigherSheet registry opts = some sh := by
    rw [findHigherSheet, find_eq_filter_head]
    exact hfirst
  have hne : registry ≠ [] := by
    intro hc
    rw [hc] at hfirst
    simp at hfirst
  have hlen : registry.length > 0 := List.length_pos.mpr hne
  have hprev : findPrevNode opts registry (pre ++ sh.element :: post) =
      ⟨some sh.element, []⟩ := by
    rw [findPrevNode, if_pos hlen, hfind]
  have hin : nodeInHead (pre ++ sh.element :: post) sh.element = true := by
    simp [nodeInHead]
  have htd := takeWhile_dropWhile_middle (fun m => !(m.id == sh.element.id)) pre post
    sh.element (by intro m hm; simp [hpre m hm]) (by simp)
  rw [insertStyle, hprev]
  simp only [hin, if_true]
  rw [insertBeforeId, htd.1, htd.2]

/-- C2 witness: two attached higher sheets both qualify; the container
lands immediately before the first-registered one even though the other
sits earlier in the head. -/
theorem claimC2_witness :
    insertStyle ⟨2, NodeKind.element⟩ ⟨1, none⟩
        [⟨true, ⟨3, none⟩, ⟨10, NodeKind.element⟩⟩, ⟨true, ⟨2, none⟩, ⟨11, NodeKind.element⟩⟩]
        ([⟨11, NodeKind.element⟩] ++ ⟨10, NodeKind.element⟩ :: []) =
      ([⟨11, NodeKind.element⟩] ++ ⟨2, NodeKind.element⟩ :: ⟨10, NodeKind.element⟩ :: [], []) :=
  claimC2_insert_before_first_higher _ _ _ ⟨true, ⟨3, none⟩, ⟨10, NodeKind.element⟩⟩
    [⟨11, NodeKind.element⟩] [] (by decide) (by decide)

/-! ### C9: missing string marker (corrected) -/

/-- C9 counterexample: the claim as stated ignores the registry fallbacks
that run first.  Here the marker `"foo"` has no matching comment in the
head, yet the container is inserted before an attached registry neighbor
sharing the insertion point — not at the end — and no warning is emitted. -/
theorem claimC9_counterexample :
    (insertStyle ⟨2, NodeKind.element⟩ ⟨0, some (InsertionPoint.str ("foo"))⟩
        [⟨true, ⟨5, some (InsertionPoint.str ("foo"))⟩, ⟨1, NodeKind.element⟩⟩]
        [⟨1, NodeKind.element⟩]).1 ≠ [⟨1, NodeKind.element⟩, ⟨2, NodeKind.element⟩] ∧
    (insertStyle ⟨2, NodeKind.element⟩ ⟨0, some (InsertionPoint.str ("foo"))⟩
        [⟨true, ⟨5, some (InsertionPoint.str ("foo"))⟩, ⟨1, NodeKind.element⟩⟩]
        [⟨1, NodeKind.element⟩]).2 = [] := by
  decide

/-- C9 (amended): when no attached collection in the registry shares the
string-marker insertion point (so the marker lookup is actually reached)
and no comment in the host style area matches the marker, insertion never
fails: the container is placed at the end of the head and exactly one
warning is emitted, and only when the marker is not the default `"jss"`. -/
theorem claimC9_amended (marker : String) (i : Int) (registry : List SheetRec)
    (head : List HeadNode) (style : HeadNode)
    (hreg : ∀ sh ∈ registry,
      sh.attached = false ∨ sh.options.insertionPoint ≠ some (InsertionPoint.str marker))
    (hcom : ∀ n ∈ head, ∀ v, n.kind = NodeKind.comment v → v.trim ≠ marker) :
    insertStyle style ⟨i, some (InsertionPoint.str marker)⟩ registry head =
      (head ++ [style],
        if marker == "jss" then [] else [insertionPointMissingWarning marker]) := by
  have hhigher : findHigherSheet registry ⟨i, some (InsertionPoint.str marker)⟩ = none := by
    rw [findHigherSheet, List.find?_eq_none]
    intro sh hsh
    rcases hreg sh hsh with h | h
    · simp [higherMatch, h]
    · simp [higherMatch, h]
  have hhighest : findHighestSheet registry ⟨i, some (InsertionPoint.str marker)⟩ = none := by
    rw [findHighestSheet, List.find?_eq_none]
    intro sh hsh
    rcases hreg sh (List.mem_reverse.mp hsh) with h | h
    · simp [h]
    · simp [h]
  have hcn : findCommentNode marker head = none := by
    rw [findCommentNode, List.find?_eq_none]
    intro n hn
    match hnk : n.kind with
    | NodeKind.element => simp [hnk]
    | NodeKind.comment v =>
      have hv := hcom n hn v hnk
      simp [hnk, hv]
  have hmark : findMarkerNode ⟨i, some (InsertionPoint.str marker)⟩ head =
      ⟨none, if marker == "jss" then [] else [insertionPointMissingWarning marker]⟩ := by
    rw [findMarkerNode]
    simp only [hcn]
  have hprev : findPrevNode ⟨i, some (InsertionPoint.str marker)⟩ registry head =
      ⟨none, if marker == "jss" then [] else [insertionPointMissingWarning marker]⟩ := by
    rw [findPrevNode]
    by_cases hl : registry.length > 0
    · rw [if_pos hl, hhigher, hhighest, hmark]
    · rw [if_neg hl, hmark]
  rw [insertStyle, hprev]

/-- C9 witness: marker `"xyz"` against an empty registry and head yields
append-at-end plus exactly one warning; the default marker `"jss"` yields
append-at-end and no warning. -/
theorem claimC9_witness :
    insertStyle ⟨2, NodeKind.element⟩ ⟨0, some (InsertionPoint.str ("xyz"))⟩ []
        [⟨1, NodeKind.element⟩] =
      ([⟨1, NodeKind.element⟩, ⟨2, NodeKind.element⟩],
        [insertionPointMissingWarning ("xyz")]) := by
  have h := claimC9_amended ("xyz") 0 [] [⟨1, NodeKind.element⟩] ⟨2, NodeKind.element⟩
    (by intro sh hsh; cases hsh)
    (by
      intro n hn v hv
      rcases List.mem_singleton.mp hn with rfl
      simp at hv)
  simpa using h

/-! ### C5: redeploy before re-attach after per-rule insertion -/

/-- C5: if per-rule native insertion has been used (`hasInsertedRules`),
then attach on a detached container first deploys the sheet's full
serialization into the container and clears the flag, and the container is
then inserted into the host document per the insertion procedure. -/
theorem claimC5_redeploy_on_attach (r : Renderer) (sh : SheetModel) (registry : List SheetRec)
    (head : List HeadNode)
    (h1 : r.sheet = some sh) (h2 : r.hasInsertedRules = true)
    (h3 : nodeInHead head r.element = false) :
    (DomRenderer.attach r registry head).1.textContent = "\n" ++ sh.css ++ "\n" ∧
    (DomRenderer.attach r registry head).1.hasInsertedRules = false ∧
    (DomRenderer.attach r registry head).2 = insertStyle r.element sh.options registry head := by
  unfold DomRenderer.attach
  rw [h3, h1, h2]
  simp [DomRenderer.deploy, h1]

/-- C5 witness: a detached renderer with `hasInsertedRules` set redeploys
its sheet's serialization and clears the flag on attach. -/
theorem claimC5_witness :
    (DomRenderer.attach ⟨⟨2, NodeKind.element⟩, "", ["x"], true, some ⟨⟨0, none⟩, ".a"⟩⟩ []
        []).1.textContent = "\n" ++ ".a" ++ "\n" ∧
    (DomRenderer.attach ⟨⟨2, NodeKind.element⟩, "", ["x"], true, some ⟨⟨0, none⟩, ".a"⟩⟩ []
        []).1.hasInsertedRules = false ∧
    (DomRenderer.attach ⟨⟨2, NodeKind.element⟩, "", ["x"], true, some ⟨⟨0, none⟩, ".a"⟩⟩ []
        []).2 = insertStyle ⟨2, NodeKind.element⟩ ⟨0, none⟩ [] [] :=
  claimC5_redeploy_on_attach _ ⟨⟨0, none⟩, ".a"⟩ [] [] rfl rfl (by decide)

/-! ### C1: the registry invariant (helper lemmas) -/

theorem mem_spliceInsertAt {α : Type} (l : List α) (i : Nat) (x y : α) :
    y ∈ spliceInsertAt l i x ↔ y = x ∨ y ∈ l := by
  unfold spliceInsertAt
  constructor
  · intro h
    rcases List.mem_append.mp h with h1 | h2
    · exact Or.inr ((List.take_sublist _ _).subset h1)
    · rcases List.mem_cons.mp h2 with rfl | h3
      · exact Or.inl rfl
      · exact Or.inr ((List.drop_sublist _ _).subset h3)
  · intro h
    rcases h with rfl | h
    · exact List.mem_append.mpr (Or.inr (List.mem_cons_self _ _))
    · rw [← List.take_append_drop (min i l.length) l] at h
      rcases List.mem_append.mp h with h1 | h2
      · exact List.mem_append.mpr (Or.inl h1)
      · exact List.mem_append.mpr (Or.inr (List.mem_cons_of_mem _ h2))

theorem map_spliceInsertAt {α β : Type} (f : α → β) (l : List α) (i : Nat) (x : α) :
    ((spliceInsertAt l i x).map f).Perm (f x :: l.map f) := by
  unfold spliceInsertAt
  rw [List.map_append, List.map_cons]
  exact List.perm_middle.trans (by rw [← List.map_append, List.take_append_drop])

theorem filterMap_spliceInsertAt {α β : Type} (g : α → Option β) (l : List α) (i : Nat) (x : α) :
    ((spliceInsertAt l i x).filterMap g).Perm ((g x).toList ++ l.filterMap g) := by
  unfold spliceInsertAt
  rw [List.filterMap_append, List.filterMap_cons]
  cases hg : g x with
  | none =>
    rw [← List.filterMap_append, List.take_append_drop]
    simp
  | some b =>
    simp only [Option.toList_some]
    exact List.perm_middle.trans (by rw [← List.filterMap_append, List.take_append_drop]; rfl)

theorem objHas_false_iff {α : Type} (m : ObjMap α) (k : String) :
    objHas m k = false ↔ ∀ e ∈ m, e.1 ≠ k := by
  simp [objHas]

theorem objSet_fresh {α : Type} (m : ObjMap α) (k : String) (v : α)
    (h : ∀ e ∈ m, e.1 ≠ k) : objSet m k v = m ++ [(k, v)] := by
  unfold objSet
  rw [if_neg]
  rw [Bool.not_eq_true, objHas_false_iff]
  exact h

theorem mem_objDelete {α : Type} (m : ObjMap α) (k : String) (e : String × α) :
    e ∈ objDelete m k ↔ e ∈ m ∧ e.1 ≠ k := by
  simp [objDelete, List.mem_filter]

theorem objGet_of_mem_nodup {α : Type} (m : ObjMap α) (k : String) (v : α)
    (hnd : (m.map Prod.fst).Nodup) (hm : (k, v) ∈ m) : objGet m k = some v := by
  induction m with
  | nil => cases hm
  | cons e t ih =>
    have hnd' : e.1 ∉ (t.map Prod.fst) ∧ (t.map Prod.fst).Nodup := by
      rw [List.map_cons] at hnd
      exact List.nodup_cons.mp hnd
    rcases List.mem_cons.mp hm with he | ht
    · rw [← he]
      simp [objGet, List.find?_cons]
    · have hne : ¬(e.1 = k) := by
        intro hc
        apply hnd'.1
        rw [hc]
        exact List.mem_map.mpr ⟨(k, v), ht, rfl⟩
      have := ih hnd'.2 ht
      simpa [objGet, List.find?_cons, hne] using this

theorem filter_key_length_one {α : Type} (m : ObjMap α) (k : String) (v : α)
    (hnd : (m.map Prod.fst).Nodup) (hm : (k, v) ∈ m) :
    (m.filter (fun e => e.1 == k)).length = 1 := by
  induction m with
  | nil => cases hm
  | cons e t ih =>
    have hnd2 : e.1 ∉ (t.map Prod.fst) ∧ (t.map Prod.fst).Nodup := by
      rw [List.map_cons] at hnd
      exact List.nodup_cons.mp hnd
    by_cases hek : e.1 = k
    · have hnil : t.filter (fun e => e.1 == k) = [] := by
        rw [List.filter_eq_nil_iff]
        intro a ha
        simp only [beq_iff_eq]
        intro hc
        exact hnd2.1 (by rw [hek, ← hc]; exact List.mem_map.mpr ⟨a, ha, rfl⟩)
      rw [List.filter_cons_of_pos (by simpa using hek), hnil]
      rfl
    · have ht : (k, v) ∈ t := by
        rcases List.mem_cons.mp hm with he | ht
        · exact absurd (by rw [← he]) hek
        · exact ht
      rw [List.filter_cons_of_neg (by simpa using hek)]
      exact ih hnd2.2 ht

/-! Shape lemmas: how `add` and `remove` act on the `index` and `map`
components, after resolving the `selector`/`className` matches. -/

theorem add_index_eq (s : RuleListState) (r : Rule) (d : String) (i : Option Nat)
    (c : Option String) :
    (RuleList.add s r d i c).index =
      spliceInsertAt s.index (match i with | none => s.index.length | some k => k) r := by
  obtain ⟨key, selOpt, body⟩ := r
  cases selOpt <;> cases c <;> rfl

theorem add_map_none (s : RuleListState) (r : Rule) (d : String) (i : Option Nat)
    (c : Option String) (hsel : r.selector = none) :
    (RuleList.add s r d i c).map = objSet s.map r.key r := by
  obtain ⟨key, selOpt, body⟩ := r
  cases selOpt with
  | none => cases c <;> rfl
  | some sel => simp at hsel

theorem add_map_some (s : RuleListState) (r : Rule) (d : String) (i : Option Nat)
    (c : Option String) (sel : String) (hsel : r.selector = some sel) :
    (RuleList.add s r d i c).map = objSet (objSet s.map r.key r) sel r := by
  obtain ⟨key, selOpt, body⟩ := r
  cases selOpt with
  | none => simp at hsel
  | some sel2 =>
    have : sel2 = sel := by simpa using hsel
    subst this
    cases c <;> rfl

theorem remove_index_eq (s : RuleListState) (r : Rule) :
    (RuleList.remove s r).index = spliceRemoveOne s.index (jsIndexOf s.index r) := by
  obtain ⟨key, selOpt, body⟩ := r
  cases selOpt <;> rfl

theorem remove_map_none (s : RuleListState) (r : Rule) (hsel : r.selector = none) :
    (RuleList.remove s r).map = objDelete s.map r.key := by
  obtain ⟨key, selOpt, body⟩ := r
  cases selOpt with
  | none => rfl
  | some sel => simp at hsel

theorem remove_map_some (s : RuleListState) (r : Rule) (sel : String)
    (hsel : r.selector = some sel) :
    (RuleList.remove s r).map = objDelete (objDelete s.map r.key) sel := by
  obtain ⟨key, selOpt, body⟩ := r
  cases selOpt with
  | none => simp at hsel
  | some sel2 =>
    have : sel2 = sel := by simpa using hsel
    subst this
    rfl

theorem wfAddRule_spec (s : RuleListState) (r : Rule) (h : wfAddRule s r = true) :
    r.key ∉ keysOf s ∧ r.key ∉ selsOf s ∧
      ∀ sel, r.selector = some sel → sel ∉ keysOf s ∧ sel ∉ selsOf s ∧ sel ≠ r.key := by
  unfold wfAddRule at h
  cases hs : r.selector with
  | none =>
    rw [hs] at h
    simp only [Bool.and_eq_true, decide_eq_true_eq, Bool.and_true] at h
    exact ⟨h.1, h.2, fun sel hc => by cases hc⟩
  | some sel =>
    rw [hs] at h
    simp only [Bool.and_eq_true, decide_eq_true_eq] at h
    refine ⟨h.1.1, h.1.2, fun sel2 hc => ?_⟩
    have : sel2 = sel := (Option.some.inj hc).symm
    subst this
    exact ⟨h.2.1.1, h.2.1.2, h.2.2⟩

theorem map_fst_mem (s : RuleListState) (hinv : RegInv s) (e : String × Rule)
    (he : e ∈ s.map) : e.1 ∈ keysOf s ∨ e.1 ∈ selsOf s := by
  rcases (hinv.mem e).mp he with ⟨r, hr, he2⟩ | ⟨r, hr, hsel, _⟩
  · left
    rw [he2]
    exact List.mem_map.mpr ⟨r, hr, rfl⟩
  · right
    exact List.mem_filterMap.mpr ⟨r, hr, hsel⟩

theorem fresh_of_inv (s : RuleListState) (hinv : RegInv s) (k : String)
    (hk1 : k ∉ keysOf s) (hk2 : k ∉ selsOf s) : ∀ e ∈ s.map, e.1 ≠ k := by
  intro e he hc
  rcases map_fst_mem s hinv e he with h | h
  · exact hk1 (hc ▸ h)
  · exact hk2 (hc ▸ h)

theorem regInv_add (s : RuleListState) (r : Rule) (d : String) (i : Option Nat)
    (c : Option String) (hwf : wfAddRule s r = true) (hinv : RegInv s) :
    RegInv (RuleList.add s r d i c) := by
  obtain ⟨hk1, hk2, hsel3⟩ := wfAddRule_spec s r hwf
  have hidx := add_index_eq s r d i c
  have hmemidx : ∀ y, y ∈ (RuleList.add s r d i c).index ↔ y = r ∨ y ∈ s.index := by
    intro y
    rw [hidx]
    exact mem_spliceInsertAt _ _ _ _
  have hkperm : (keysOf (RuleList.add s r d i c)).Perm (r.key :: keysOf s) := by
    unfold keysOf
    rw [hidx]
    exact map_spliceInsertAt _ _ _ _
  have hsperm : (selsOf (RuleList.add s r d i c)).Perm
      (r.selector.toList ++ selsOf s) := by
    unfold selsOf
    rw [hidx]
    exact filterMap_spliceInsertAt _ _ _ _
  have hfresh1 : ∀ e ∈ s.map, e.1 ≠ r.key := fresh_of_inv s hinv r.key hk1 hk2
  cases hselcase : r.selector with
  | none =>
    have hmap : (RuleList.add s r d i c).map = s.map ++ [(r.key, r)] := by
      rw [add_map_none s r d i c hselcase]
      exact objSet_fresh _ _ _ hfresh1
    rw [hselcase] at hsperm
    simp only [Option.toList_none, List.nil_append] at hsperm
    refine ⟨?_, ?_, ?_, ?_, ?_⟩
    · exact hkperm.nodup_iff.mpr (List.nodup_cons.mpr ⟨hk1, hinv.nk⟩)
    · exact hsperm.nodup_iff.mpr hinv.ns
    · intro k hk
      rw [hkperm.mem_iff] at hk
      rw [hsperm.mem_iff]
      rcases List.mem_cons.mp hk with rfl | hk
      · exact hk2
      · exact hinv.disj k hk
    · rw [hmap, List.map_append]
      refine List.Nodup.append hinv.mnd (by simp) ?_
      intro a ha hb
      rw [List.map_singleton, List.mem_singleton] at hb
      subst hb
      rcases List.mem_map.mp ha with ⟨e, he, hfe⟩
      exact hfresh1 e he hfe
    · intro e
      rw [hmap, List.mem_append, List.mem_singleton, hinv.mem e]
      constructor
      · rintro ((⟨r2, hr2, he⟩ | ⟨r2, hr2, hs2, he⟩) | he)
        · exact Or.inl ⟨r2, (hmemidx r2).mpr (Or.inr hr2), he⟩
        · exact Or.inr ⟨r2, (hmemidx r2).mpr (Or.inr hr2), hs2, he⟩
        · exact Or.inl ⟨r, (hmemidx r).mpr (Or.inl rfl), by rw [he]⟩
      · rintro (⟨r2, hr2, he⟩ | ⟨r2, hr2, hs2, he⟩)
        · rcases (hmemidx r2).mp hr2 with rfl | hr2
          · exact Or.inr (by rw [he])
          · exact Or.inl (Or.inl ⟨r2, hr2, he⟩)
        · rcases (hmemidx r2).mp hr2 with rfl | hr2b
          · rw [hselcase] at hs2
            cases hs2
          · exact Or.inl (Or.inr ⟨r2, hr2b, hs2, he⟩)
  | some sel =>
    obtain ⟨hs1, hs2w, hs3⟩ := hsel3 sel hselcase
    have hfresh2 : ∀ e ∈ s.map ++ [(r.key, r)], e.1 ≠ sel := by
      intro e he
      rcases List.mem_append.mp he with he | he
      · exact fresh_of_inv s hinv sel hs1 hs2w e he
      · rw [List.mem_singleton.mp he]
        intro hc
        exact hs3 hc.symm
    have hmap : (RuleList.add s r d i c).map = s.map ++ [(r.key, r)] ++ [(sel, r)] := by
      rw [add_map_some s r d i c sel hselcase, objSet_fresh s.map r.key r hfresh1]
      exact objSet_fresh _ _ _ hfresh2
    rw [hselcase] at hsperm
    simp only [Option.toList_some, List.singleton_append] at hsperm
    refine ⟨?_, ?_, ?_, ?_, ?_⟩
    · exact hkperm.nodup_iff.mpr (List.nodup_cons.mpr ⟨hk1, hinv.nk⟩)
    · exact hsperm.nodup_iff.mpr (List.nodup_cons.mpr ⟨hs2w, hinv.ns⟩)
    · intro k hk
      rw [hkperm.mem_iff] at hk
      rw [hsperm.mem_iff, List.mem_cons]
      rcases List.mem_cons.mp hk with rfl | hk
      · rintro (hc | hc)
        · exact hs3 hc.symm
        · exact hk2 hc
      · rintro (hc | hc)
        · exact hs1 (hc ▸ hk)
        · exact hinv.disj k hk hc
    · rw [hmap, List.append_assoc, List.map_append]
      refine List.Nodup.append hinv.mnd ?_ ?_
      · simp only [List.singleton_append, List.map_cons, List.map_nil]
        refine List.nodup_cons.mpr ⟨?_, by simp⟩
        simp only [List.mem_singleton]
        exact fun hc => hs3 hc.symm
      · intro a ha hb
        rcases List.mem_map.mp ha with ⟨e, he, hfe⟩
        simp only [List.singleton_append, List.map_cons, List.map_nil, List.mem_cons,
          List.mem_singleton, List.not_mem_nil, or_false] at hb
        rcases hb with hb | hb
        · exact hfresh1 e he (hfe.trans hb)
        · exact fresh_of_inv s hinv sel hs1 hs2w e he (hfe.trans hb)
    · intro e
      rw [hmap, List.append_assoc, List.mem_append, List.singleton_append, hinv.mem e]
      constructor
      · rintro ((⟨r2, hr2, he⟩ | ⟨r2, hr2, hx2, he⟩) | he)
        · exact Or.inl ⟨r2, (hmemidx r2).mpr (Or.inr hr2), he⟩
        · exact Or.inr ⟨r2, (hmemidx r2).mpr (Or.inr hr2), hx2, he⟩
        · rcases List.mem_cons.mp he with he | he
          · exact Or.inl ⟨r, (hmemidx r).mpr (Or.inl rfl), by rw [he]⟩
          · rw [List.mem_singleton] at he
            refine Or.inr ⟨r, (hmemidx r).mpr (Or.inl rfl), ?_, ?_⟩
            · rw [he, hselcase]
            · rw [he]
      · rintro (⟨r2, hr2, he⟩ | ⟨r2, hr2, hx2, he⟩)
        · rcases (hmemidx r2).mp hr2 with hre | hr2
          · subst hre
            refine Or.inr ?_
            rw [he]
            exact List.mem_cons_self _ _
          · exact Or.inl (Or.inl ⟨r2, hr2, he⟩)
        · rcases (hmemidx r2).mp hr2 with hre | hr2b
          · subst hre
            refine Or.inr ?_
            rw [hselcase] at hx2
            have he1 : e.1 = sel := (Option.some.inj hx2).symm
            have hee : e = (sel, r2) := Prod.ext he1 he
            rw [hee]
            simp
          · exact Or.inl (Or.inr ⟨r2, hr2b, hx2, he⟩)

theorem jsIndexOf_nonneg {α : Type} [DecidableEq α] (l : List α) (x : α) (h : x ∈ l) :
    0 ≤ jsIndexOf l x := by
  induction l with
  | nil => cases h
  | cons a t ih =>
    unfold jsIndexOf
    by_cases hax : a = x
    · rw [if_pos hax]
    · rw [if_neg hax]
      have hxt : x ∈ t := by
        rcases List.mem_cons.mp h with h1 | h1
        · exact absurd h1.symm hax
        · exact h1
      have hnn := ih hxt
      dsimp only
      rw [if_neg (by omega)]
      omega

theorem spliceRemoveOne_natCast {α : Type} (l : List α) (k : Nat) :
    spliceRemoveOne l ((k : Nat) : Int) = l.take (min k l.length) ++ l.drop (min k l.length + 1) := by
  simp only [spliceRemoveOne]
  rw [if_neg (by omega)]
  have hj : ((k : Int) ⊓ ((l.length : Nat) : Int)).toNat = min k l.length := by omega
  rw [hj]

theorem spliceRemoveOne_indexOf {α : Type} [DecidableEq α] (l : List α) (x : α) (h : x ∈ l) :
    spliceRemoveOne l (jsIndexOf l x) = l.erase x := by
  induction l with
  | nil => cases h
  | cons a t ih =>
    by_cases hax : a = x
    · subst hax
      rw [show jsIndexOf (a :: t) a = ((0 : Nat) : Int) from by unfold jsIndexOf; rw [if_pos rfl]; rfl]
      rw [spliceRemoveOne_natCast]
      simp [List.erase_cons_head]
    · have hxt : x ∈ t := by
        rcases List.mem_cons.mp h with h1 | h1
        · exact absurd h1.symm hax
        · exact h1
      have hnn := jsIndexOf_nonneg t x hxt
      obtain ⟨k, hk⟩ : ∃ k : Nat, jsIndexOf t x = (k : Int) :=
        ⟨(jsIndexOf t x).toNat, (Int.toNat_of_nonneg hnn).symm⟩
      have hcons : jsIndexOf (a :: t) x = (((k + 1 : Nat) : Nat) : Int) := by
        unfold jsIndexOf
        rw [if_neg hax]
        dsimp only
        rw [hk, if_neg (by omega)]
        push_cast
        ring
      have hmin : min (k + 1) (a :: t).length = min k t.length + 1 := by
        simp only [List.length_cons]
        omega
      rw [hcons, spliceRemoveOne_natCast, hmin, List.take_succ_cons, List.drop_succ_cons,
        List.cons_append, ← spliceRemoveOne_natCast, ← hk, ih hxt, List.erase_cons_tail]
      simp [hax]

theorem regInv_remove (s : RuleListState) (r : Rule) (hmem : r ∈ s.index) (hinv : RegInv s) :
    RegInv (RuleList.remove s r) := by
  have hidxnd : s.index.Nodup := List.Nodup.of_map _ hinv.nk
  have hidx : (RuleList.remove s r).index = s.index.erase r := by
    rw [remove_index_eq, spliceRemoveOne_indexOf s.index r hmem]
  have hperm : s.index.Perm (r :: s.index.erase r) := List.perm_cons_erase hmem
  have hkperm : (keysOf s).Perm (r.key :: (s.index.erase r).map (fun r => r.key)) := by
    have h2 := hperm.map (fun r => r.key)
    simpa [keysOf] using h2
  have hknd := hkperm.nodup_iff.mp hinv.nk
  rw [List.nodup_cons] at hknd
  have hmemidx : ∀ y, y ∈ s.index.erase r ↔ y ≠ r ∧ y ∈ s.index :=
    fun y => List.Nodup.mem_erase_iff hidxnd
  have hkeyinj : ∀ x ∈ s.index, ∀ y ∈ s.index, x.key = y.key → x = y := by
    have hnk : (s.index.map (fun r => r.key)).Nodup := hinv.nk
    exact fun x hx y hy hxy => List.inj_on_of_nodup_map hnk hx hy hxy
  have hrk : r.key ∈ keysOf s := List.mem_map.mpr ⟨r, hmem, rfl⟩
  have hksub : ∀ k, k ∈ (s.index.erase r).map (fun r => r.key) → k ∈ keysOf s := by
    intro k hk
    rw [hkperm.mem_iff]
    exact List.mem_cons_of_mem _ hk
  cases hselcase : r.selector with
  | none =>
    have hmap : (RuleList.remove s r).map = objDelete s.map r.key :=
      remove_map_none s r hselcase
    have hsperm : (selsOf s).Perm ((s.index.erase r).filterMap (fun r => r.selector)) := by
      have h2 := hperm.filterMap (fun r => r.selector)
      rw [List.filterMap_cons, hselcase] at h2
      simpa [selsOf] using h2
    refine ⟨?_, ?_, ?_, ?_, ?_⟩
    · unfold keysOf
      rw [hidx]
      exact hknd.2
    · unfold selsOf
      rw [hidx]
      exact hsperm.nodup_iff.mp hinv.ns
    · intro k hk
      unfold keysOf at hk
      rw [hidx] at hk
      unfold selsOf
      rw [hidx]
      intro hks
      exact hinv.disj k (hksub k hk) (hsperm.mem_iff.mpr hks)
    · rw [hmap]
      exact List.Nodup.sublist ((List.filter_sublist _).map _) hinv.mnd
    · intro e
      rw [hmap, mem_objDelete, hinv.mem e, hidx]
      constructor
      · rintro ⟨(⟨r2, hr2, he⟩ | ⟨r2, hr2, hx2, he⟩), hne⟩
        · refine Or.inl ⟨r2, (hmemidx r2).mpr ⟨?_, hr2⟩, he⟩
          intro hc
          subst hc
          exact hne (by rw [he])
        · refine Or.inr ⟨r2, (hmemidx r2).mpr ⟨?_, hr2⟩, hx2, he⟩
          intro hc
          subst hc
          rw [hselcase] at hx2
          cases hx2
      · rintro (⟨r2, hr2, he⟩ | ⟨r2, hr2, hx2, he⟩)
        · obtain ⟨hr2ne, hr2s⟩ := (hmemidx r2).mp hr2
          refine ⟨Or.inl ⟨r2, hr2s, he⟩, ?_⟩
          rw [he]
          intro hc
          exact hr2ne (hkeyinj r2 hr2s r hmem hc)
        · obtain ⟨hr2ne, hr2s⟩ := (hmemidx r2).mp hr2
          refine ⟨Or.inr ⟨r2, hr2s, hx2, he⟩, ?_⟩
          intro hc
          have he1 : e.1 ∈ selsOf s := List.mem_filterMap.mpr ⟨r2, hr2s, hx2⟩
          exact hinv.disj r.key hrk (hc ▸ he1)
  | some sel =>
    have hmap : (RuleList.remove s r).map = objDelete (objDelete s.map r.key) sel :=
      remove_map_some s r sel hselcase
    have hsperm : (selsOf s).Perm (sel :: (s.index.erase r).filterMap (fun r => r.selector)) := by
      have h2 := hperm.filterMap (fun r => r.selector)
      rw [List.filterMap_cons, hselcase] at h2
      simpa [selsOf] using h2
    have hsnd := hsperm.nodup_iff.mp hinv.ns
    rw [List.nodup_cons] at hsnd
    have hselS : sel ∈ selsOf s := List.mem_filterMap.mpr ⟨r, hmem, hselcase⟩
    have hssub : ∀ k, k ∈ (s.index.erase r).filterMap (fun r => r.selector) → k ∈ selsOf s := by
      intro k hk
      rw [hsperm.mem_iff]
      exact List.mem_cons_of_mem _ hk
    refine ⟨?_, ?_, ?_, ?_, ?_⟩
    · unfold keysOf
      rw [hidx]
      exact hknd.2
    · unfold selsOf
      rw [hidx]
      exact hsnd.2
    · intro k hk
      unfold keysOf at hk
      rw [hidx] at hk
      unfold selsOf
      rw [hidx]
      intro hks
      exact hinv.disj k (hksub k hk) (hssub k hks)
    · rw [hmap]
      refine List.Nodup.sublist ?_ hinv.mnd
      exact ((List.filter_sublist _).trans (List.filter_sublist _)).map _
    · intro e
      rw [hmap, mem_objDelete, mem_objDelete, hinv.mem e, hidx]
      constructor
      · rintro ⟨⟨(⟨r2, hr2, he⟩ | ⟨r2, hr2, hx2, he⟩), hnek⟩, hnes⟩
        · refine Or.inl ⟨r2, (hmemidx r2).mpr ⟨?_, hr2⟩, he⟩
          intro hc
          subst hc
          exact hnek (by rw [he])
        · refine Or.inr ⟨r2, (hmemidx r2).mpr ⟨?_, hr2⟩, hx2, he⟩
          intro hc
          subst hc
          rw [hselcase] at hx2
          exact hnes (Option.some.inj hx2).symm
      · rintro (⟨r2, hr2, he⟩ | ⟨r2, hr2, hx2, he⟩)
        · obtain ⟨hr2ne, hr2s⟩ := (hmemidx r2).mp hr2
          refine ⟨⟨Or.inl ⟨r2, hr2s, he⟩, ?_⟩, ?_⟩
          · rw [he]
            intro hc
            exact hr2ne (hkeyinj r2 hr2s r hmem hc)
          · rw [he]
            intro hc
            exact hinv.disj r2.key (List.mem_map.mpr ⟨r2, hr2s, rfl⟩)
              (by rw [show r2.key = sel from hc]; exact hselS)
        · obtain ⟨hr2ne, hr2s⟩ := (hmemidx r2).mp hr2
          have he1 : e.1 ∈ (s.index.erase r).filterMap (fun r => r.selector) :=
            List.mem_filterMap.mpr ⟨r2, hr2, hx2⟩
          refine ⟨⟨Or.inr ⟨r2, hr2s, hx2, he⟩, ?_⟩, ?_⟩
          · intro hc
            exact hinv.disj r.key hrk (hc ▸ hssub _ he1)
          · intro hc
            exact hsnd.1 (hc ▸ he1)

theorem regInv_empty : RegInv emptyRuleList := by
  refine ⟨?_, ?_, ?_, ?_, ?_⟩ <;> simp [keysOf, selsOf, emptyRuleList]

theorem regInv_ops (ops : List RegistryOp) :
    ∀ s : RuleListState, RegInv s → wfOps s ops = true → RegInv (applyOps s ops) := by
  induction ops with
  | nil =>
    intro s h _
    exact h
  | cons op rest ih =>
    intro s hinv hwf
    unfold wfOps at hwf
    rw [Bool.and_eq_true] at hwf
    have hstep : RegInv (applyOp s op) := by
      cases op with
      | addOp r d i c => exact regInv_add s r d i c hwf.1 hinv
      | removeOp r => exact regInv_remove s r (of_decide_eq_true hwf.1) hinv
    exact ih (applyOp s op) hstep hwf.2

theorem regInv_keyEntries_length (s : RuleListState) (hinv : RegInv s) :
    (keyEntries s.map).length = s.index.length := by
  have hmnd : s.map.Nodup := List.Nodup.of_map _ hinv.mnd
  have h1 : (keyEntries s.map).Nodup := List.Nodup.filter _ hmnd
  have hidxnd : s.index.Nodup := List.Nodup.of_map _ hinv.nk
  have h2 : (s.index.map (fun r => (r.key, r))).Nodup := by
    refine List.Nodup.map ?_ hidxnd
    intro a b hab
    exact congrArg Prod.snd hab
  have hiff : ∀ e, e ∈ keyEntries s.map ↔ e ∈ s.index.map (fun r => (r.key, r)) := by
    intro e
    unfold keyEntries
    rw [List.mem_filter, hinv.mem e, List.mem_map]
    constructor
    · rintro ⟨(⟨r2, hr2, he⟩ | ⟨r2, hr2, hx2, he⟩), hcond⟩
      · exact ⟨r2, hr2, he.symm⟩
      · exfalso
        rw [beq_iff_eq] at hcond
        have h3 : e.1 ∈ selsOf s := List.mem_filterMap.mpr ⟨r2, hr2, hx2⟩
        have h4 : e.1 ∈ keysOf s := by
          rw [hcond, he]
          exact List.mem_map.mpr ⟨r2, hr2, rfl⟩
        exact hinv.disj e.1 h4 h3
    · rintro ⟨r2, hr2, he⟩
      refine ⟨Or.inl ⟨r2, hr2, he.symm⟩, ?_⟩
      rw [← he]
      simp
  have hpermx : (keyEntries s.map).Perm (s.index.map (fun r => (r.key, r))) :=
    (List.perm_ext_iff_of_nodup h1 h2).mpr hiff
  rw [hpermx.length_eq, List.length_map]

theorem regInv_selector_lookup (s : RuleListState) (hinv : RegInv s) (r : Rule)
    (hr : r ∈ s.index) (sel : String) (hsel : r.selector = some sel) :
    objGet s.map sel = some r ∧ (s.map.filter (fun e => e.1 == sel)).length = 1 := by
  have hm : (sel, r) ∈ s.map := (hinv.mem (sel, r)).mpr (Or.inr ⟨r, hr, by rw [hsel], rfl⟩)
  exact ⟨objGet_of_mem_nodup s.map sel r hinv.mnd hm,
    filter_key_length_one s.map sel r hinv.mnd hm⟩

/-- C1 (amended): for every well-formed sequence of `add`/`remove`
operations — every added rule's key (and style selector) is fresh at the
moment it is added, and every removed rule is present in the ordered
sequence — the ordered sequence's length equals the number of key entries
in the combined map, and every style-variant rule appears in the map
exactly once keyed by its current selector. -/
theorem claimC1_amended (ops : List RegistryOp) (hwf : wfOps emptyRuleList ops = true) :
    (keyEntries (applyOps emptyRuleList ops).map).length =
        (applyOps emptyRuleList ops).index.length ∧
      ∀ r ∈ (applyOps emptyRuleList ops).index, ∀ sel, r.selector = some sel →
        objGet (applyOps emptyRuleList ops).map sel = some r ∧
        ((applyOps emptyRuleList ops).map.filter (fun e => e.1 == sel)).length = 1 := by
  have hinv := regInv_ops ops emptyRuleList regInv_empty hwf
  exact ⟨regInv_keyEntries_length _ hinv,
    fun r hr sel hsel => regInv_selector_lookup _ hinv r hr sel hsel⟩

/-- C1 counterexample: the claim as stated quantifies over all operation
sequences; adding two rules that share the key `"a"` leaves the ordered
sequence with two entries while the map holds a single key entry, so the
lengths differ. -/
theorem claimC1_counterexample :
    ((applyOps emptyRuleList [RegistryOp.addOp (⟨"a", none, "x"⟩) ("") none none,
        RegistryOp.addOp (⟨"a", none, "y"⟩) ("") none none]).index).length = 2 ∧
      (keyEntries (applyOps emptyRuleList [RegistryOp.addOp (⟨"a", none, "x"⟩) ("") none none,
        RegistryOp.addOp (⟨"a", none, "y"⟩) ("") none none]).map).length = 1 := by
  decide

/-- C1 witness: a concrete well-formed sequence — add a style rule, add a
plain rule, remove the plain rule — satisfies the amended invariant. -/
theorem claimC1_witness :
    (keyEntries (applyOps emptyRuleList
          [RegistryOp.addOp (⟨"btn", some (".btn-0-1"), "color:red"⟩) ("decl") none
            (some ("btn-0-1")),
          RegistryOp.addOp (⟨"a", none, "x"⟩) ("") none none,
          RegistryOp.removeOp (⟨"a", none, "x"⟩)]).map).length =
        (applyOps emptyRuleList
          [RegistryOp.addOp (⟨"btn", some (".btn-0-1"), "color:red"⟩) ("decl") none
            (some ("btn-0-1")),
          RegistryOp.addOp (⟨"a", none, "x"⟩) ("") none none,
          RegistryOp.removeOp (⟨"a", none, "x"⟩)]).index.length ∧
      ∀ r ∈ (applyOps emptyRuleList
          [RegistryOp.addOp (⟨"btn", some (".btn-0-1"), "color:red"⟩) ("decl") none
            (some ("btn-0-1")),
          RegistryOp.addOp (⟨"a", none, "x"⟩) ("") none none,
          RegistryOp.removeOp (⟨"a", none, "x"⟩)]).index, ∀ sel, r.selector = some sel →
        objGet (applyOps emptyRuleList
          [RegistryOp.addOp (⟨"btn", some (".btn-0-1"), "color:red"⟩) ("decl") none
            (some ("btn-0-1")),
          RegistryOp.addOp (⟨"a", none, "x"⟩) ("") none none,
          RegistryOp.removeOp (⟨"a", none, "x"⟩)]).map sel = some r ∧
        ((applyOps emptyRuleList
          [RegistryOp.addOp (⟨"btn", some (".btn-0-1"), "color:red"⟩) ("decl") none
            (some ("btn-0-1")),
          RegistryOp.addOp (⟨"a", none, "x"⟩) ("") none none,
          RegistryOp.removeOp (⟨"a", none, "x"⟩)]).map.filter
            (fun e => e.1 == sel)).length = 1 :=
  claimC1_amended _ (by decide)
